import Mathlib

/-!
Shallow embedding of the audio-visualizer core (src/main.rs and
src/components/tap.rs).

Conventions of the embedding:
* `f32` values are modelled as rationals `ℚ` (for the bar mapper, the
  temporal-evolution engine and the tap) or reals `ℝ` (for the spectral
  analyzer, whose magnitudes involve a square root).  Floating-point
  literals of the source become the corresponding rational literals
  (`0.2` becomes `1/5`, `8.0` becomes `8`, and so on).
* `f32::log10` has no exact counterpart on `ℚ`; the embedding takes the
  logarithm as an explicit function parameter `log10 : ℚ → ℚ`, and the
  theorems quantify over it.  Every property proved below holds for an
  arbitrary such function, hence in particular for the floating-point one.
* The fast Fourier transform of the `rustfft` dependency is likewise a
  parameter of the analyzer model; `FFT::process` works in place on a
  mutable slice, so the only structural fact available about it (and the
  only one the claims need) is that it preserves the buffer's length,
  taken as a hypothesis where needed.
* Rust panics (index out of bounds) are modelled by `Option`: a function
  that can panic returns `none` exactly on the panicking inputs.  The
  `usize` subtraction `total_bins - 1` is modelled by truncated `Nat`
  subtraction; at `total_bins = 0` the Rust code panics (overflow in a
  debug build, index out of bounds after wrap-around in a release build),
  and the model returns `none` there via the failing list lookup.
-/

set_option maxRecDepth 100000

/-- Constant `DEFAULT_NUM_BARS` from src/main.rs. -/
def DEFAULT_NUM_BARS : Nat := 75

/-- Constant `MIN_BAR_HEIGHT` from src/main.rs. -/
def MIN_BAR_HEIGHT : ℚ := 4

/-- Constant `MIN_DECIBEL` from src/main.rs. -/
def MIN_DECIBEL : ℚ := -90

/-- Constant `MAX_DECIBEL` from src/main.rs. -/
def MAX_DECIBEL : ℚ := -10

/-- Constant `BUFFER_SIZE` from src/main.rs. -/
def BUFFER_SIZE : Nat := 2048

/-- Constant `SMOOTHING` from `update_frequency_data` in src/main.rs
(`0.2` as a rational). -/
def SMOOTHING : ℚ := 1/5

/-- Rust `f32::clamp lo hi` (for `lo ≤ hi`): clamp `x` into `[lo, hi]`. -/
def clampQ (x lo hi : ℚ) : ℚ := min (max x lo) hi

/-- Function `map_range` from src/main.rs: linear remap of `value` from
`[from_min, from_max]` to `[to_min, to_max]`. -/
def map_range (value from_min from_max to_min to_max : ℚ) : ℚ :=
  let from_range := from_max - from_min
  let to_range := to_max - to_min
  let scaled := (value - from_min) / from_range
  to_min + scaled * to_range

/-- Mirrored source-bin index computed inside `group_frequencies_into_bars`
for output bar `i`:
`min ((i % max_index) * interval) (total_bins - 1)` with
`half_bars = (DEFAULT_NUM_BARS + 1) / 2`, `interval = total_bins / half_bars`
and `max_index = half_bars`. -/
def sourceIdx (total_bins i : Nat) : Nat :=
  let half_bars := (DEFAULT_NUM_BARS + 1) / 2
  let interval := total_bins / half_bars
  let max_index := half_bars
  min ((i % max_index) * interval) (total_bins - 1)

/-- Height computation of `group_frequencies_into_bars` applied to the
selected magnitude `m`: normalise by the window size, convert to decibels
with clamping (silence floor `MIN_DECIBEL` when the normalised magnitude is
not positive), remap linearly to `[MIN_BAR_HEIGHT, 150]`, and floor at
`MIN_BAR_HEIGHT`. -/
def barHeight (log10 : ℚ → ℚ) (m : ℚ) : ℚ :=
  let fft_size : ℚ := (BUFFER_SIZE : ℚ)
  let raw := m / fft_size
  let db := if raw > 0 then clampQ (20 * log10 raw) MIN_DECIBEL MAX_DECIBEL
            else MIN_DECIBEL
  let h := map_range db MIN_DECIBEL MAX_DECIBEL MIN_BAR_HEIGHT 150
  max h MIN_BAR_HEIGHT

/-- Body of the per-bar closure of `group_frequencies_into_bars`: look up
the mirrored source bin and compute the height.  The lookup returns `none`
exactly where the Rust indexing `magnitudes[idx]` would panic. -/
def barOf (log10 : ℚ → ℚ) (magnitudes : List ℚ) (i : Nat) : Option ℚ :=
  (magnitudes.get? (sourceIdx magnitudes.length i)).map (barHeight log10)

/-- Function `group_frequencies_into_bars` from src/main.rs: map each of the
`DEFAULT_NUM_BARS` output indices through `barOf`.  Returns `none` exactly
when some bar's source lookup panics (which happens iff the spectrum is
empty). -/
def group_frequencies_into_bars (log10 : ℚ → ℚ) (magnitudes : List ℚ) :
    Option (List ℚ) :=
  (List.range DEFAULT_NUM_BARS).mapM (barOf log10 magnitudes)

/-- Function `update_frequency_data` from src/main.rs: map the magnitudes to
new bars, then exponentially smooth the stored `frequency_data` towards
them.  The Rust loop `frequency_data.iter_mut().zip(new_bars.iter())`
mutates the first `min` of the two lengths and leaves any remaining stored
entries untouched, hence the `zipWith ++ drop`. -/
def update_frequency_data (log10 : ℚ → ℚ)
    (frequency_data magnitudes : List ℚ) : Option (List ℚ) :=
  (group_frequencies_into_bars log10 magnitudes).map (fun new_bars =>
    List.zipWith (fun old new => old * SMOOTHING + new * (1 - SMOOTHING))
        frequency_data new_bars
      ++ frequency_data.drop new_bars.length)

/-- State of the `AudioVisualizer` relevant to the temporal-evolution
engine: the two phase flags, the shared magnitude buffer (`audio_data`,
drained on active ticks) and the displayed bar heights. -/
structure VisState where
  is_playing : Bool
  is_decaying : Bool
  audio_data : List ℚ
  frequency_data : List ℚ

/-- Decay pass of the `Message::Tick` arm in src/main.rs: every bar becomes
`(h - 8.0).max(MIN_BAR_HEIGHT)`. -/
def decayStep (freq : List ℚ) : List ℚ :=
  freq.map (fun h => max (h - 8) MIN_BAR_HEIGHT)

/-- Value of the `any_above` flag computed during the decay pass: whether
any decayed bar is still strictly above `MIN_BAR_HEIGHT`. -/
def anyAbove (freq : List ℚ) : Bool :=
  (decayStep freq).any (fun h => decide (MIN_BAR_HEIGHT < h))

/-- Handler of `Message::Tick` from src/main.rs.  Playing: drain
`audio_data` if non-empty and smooth towards the freshly mapped bars (the
inner `Option` propagates a bar-mapper panic); otherwise leave the state
unchanged.  Not playing but decaying: run the decay pass and clear
`is_decaying` when no bar remains above the floor.  Otherwise: no-op. -/
def tick (log10 : ℚ → ℚ) (s : VisState) : Option VisState :=
  if s.is_playing then
    if s.audio_data.isEmpty then some s
    else
      (update_frequency_data log10 s.frequency_data s.audio_data).map
        (fun fd => { s with audio_data := [], frequency_data := fd })
  else if s.is_decaying then
    some { s with frequency_data := decayStep s.frequency_data,
                  is_decaying := anyAbove s.frequency_data }
  else
    some s

/-- Iterated ticks (sequencing the possible panic through `Option`). -/
def tickN (log10 : ℚ → ℚ) : Nat → VisState → Option VisState
  | 0, s => some s
  | n + 1, s => (tick log10 s).bind (tickN log10 n)

/-- Initial state from `impl Default for AudioVisualizer` in src/main.rs:
not playing, not decaying, empty shared buffer, all bars at
`MIN_BAR_HEIGHT`. -/
def initState : VisState where
  is_playing := false
  is_decaying := false
  audio_data := []
  frequency_data := List.replicate DEFAULT_NUM_BARS MIN_BAR_HEIGHT

/-- Condition of `AudioVisualizer::subscription` in src/main.rs under which
the periodic tick source is installed. -/
def subscription_active (s : VisState) : Bool := s.is_playing || s.is_decaying

/-- State of the `Tap` iterator from src/components/tap.rs: the remaining
samples of the wrapped source and the accumulator `buf`. -/
structure TapState where
  inner : List ℚ
  buf : List ℚ

/-- One call of `Iterator::next` on `Tap` from src/components/tap.rs.
Returns the yielded sample (`none` when the inner source is exhausted), the
successor state, and the window handed to `sender.send` this call (if any).
The Rust code discards the send's result (`let _ = self.sender.send(full)`),
modelled by the `sendResult` parameter: whether the channel still has a
receiver influences nothing. -/
def tapNext (sendResult : List ℚ → Bool) (t : TapState) :
    Option ℚ × TapState × Option (List ℚ) :=
  match t.inner with
  | [] => (none, t, none)
  | sample :: rest =>
    let buf1 := t.buf ++ [sample]
    if BUFFER_SIZE ≤ buf1.length then
      let _ := sendResult buf1
      (some sample, ⟨rest, []⟩, some buf1)
    else
      (some sample, ⟨rest, buf1⟩, none)

/-- Euclidean norm of a complex number represented as a real pair, the
model of `num_complex::Complex::norm` used in `start_audio_analysis`. -/
noncomputable def cnorm (c : ℝ × ℝ) : ℝ := Real.sqrt (c.1 ^ 2 + c.2 ^ 2)

/-- Body of the analyzer loop in `start_audio_analysis` (src/main.rs) for
one received chunk: if the chunk has at least `BUFFER_SIZE` samples, build
the complex buffer from the first `BUFFER_SIZE` of them (imaginary part
zero), run the transform, and keep the norms of the first `BUFFER_SIZE / 2`
outputs; otherwise do nothing (`none`). -/
noncomputable def analyzeChunk (fft : List (ℝ × ℝ) → List (ℝ × ℝ))
    (samples : List ℝ) : Option (List ℝ) :=
  if BUFFER_SIZE ≤ samples.length then
    let buffer := (samples.take BUFFER_SIZE).map (fun x => (x, (0 : ℝ)))
    let transformed := fft buffer
    some ((transformed.take (BUFFER_SIZE / 2)).map cnorm)
  else
    none

/-- Effect of one analyzer-loop iteration on the shared spectrum slot
(`audio_data` in src/main.rs): a computed magnitude list replaces the
slot's contents (`clear` then `extend`); a skipped chunk leaves it
unchanged. -/
noncomputable def analyzerStep (fft : List (ℝ × ℝ) → List (ℝ × ℝ))
    (slot : List ℝ) (samples : List ℝ) : List ℝ :=
  match analyzeChunk fft samples with
  | some magnitudes => magnitudes
  | none => slot

/-! Helper lemmas about the bar mapper. -/

theorem mapM_eq_some_map {α β : Type} (f : α → Option β) (g : α → β)
    (l : List α) (h : ∀ a ∈ l, f a = some (g a)) :
    l.mapM f = some (l.map g) := by
  induction l with
  | nil => rfl
  | cons a t ih =>
    simp only [List.mapM_cons, h a (List.mem_cons_self a t),
      ih (fun x hx => h x (List.mem_cons_of_mem a hx)), List.map_cons,
      pure_bind]
    rfl

theorem barHeight_ge (log10 : ℚ → ℚ) (m : ℚ) :
    MIN_BAR_HEIGHT ≤ barHeight log10 m :=
  le_max_right _ _

theorem barHeight_le (log10 : ℚ → ℚ) (m : ℚ) : barHeight log10 m ≤ 150 := by
  simp only [barHeight, map_range, clampQ, MIN_DECIBEL, MAX_DECIBEL,
    MIN_BAR_HEIGHT]
  split
  · have hdb : min (max (20 * log10 (m / (BUFFER_SIZE : ℚ))) (-90)) (-10)
        ≤ -10 := min_le_right _ _
    set db := min (max (20 * log10 (m / (BUFFER_SIZE : ℚ))) (-90)) (-10)
    apply max_le _ (by norm_num)
    have : (db - -90) / (-10 - -90) * (150 - 4) ≤ 146 := by
      rw [div_mul_eq_mul_div]
      rw [div_le_iff₀ (by norm_num)]
      linarith
    linarith
  · norm_num

theorem sourceIdx_lt (total_bins i : Nat) (h : total_bins ≠ 0) :
    sourceIdx total_bins i < total_bins := by
  unfold sourceIdx
  exact lt_of_le_of_lt (min_le_right _ _) (by omega)

theorem sourceIdx_mod (total_bins i : Nat) :
    sourceIdx total_bins (i % ((DEFAULT_NUM_BARS + 1) / 2)) =
      sourceIdx total_bins i := by
  unfold sourceIdx DEFAULT_NUM_BARS
  norm_num

theorem barOf_eq_some (log10 : ℚ → ℚ) (magnitudes : List ℚ) (i : Nat)
    (h : magnitudes ≠ []) :
    barOf log10 magnitudes i =
      some (barHeight log10
        (magnitudes.getD (sourceIdx magnitudes.length i) 0)) := by
  have hlt : sourceIdx magnitudes.length i < magnitudes.length :=
    sourceIdx_lt _ _ (fun h0 => h (List.length_eq_zero.mp h0))
  unfold barOf
  simp [List.get?_eq_getElem?, List.getElem?_eq_getElem hlt,
    List.getD_eq_getElem?_getD]

theorem group_eq_map (log10 : ℚ → ℚ) (magnitudes : List ℚ)
    (h : magnitudes ≠ []) :
    group_frequencies_into_bars log10 magnitudes =
      some ((List.range DEFAULT_NUM_BARS).map
        (fun i => barHeight log10
          (magnitudes.getD (sourceIdx magnitudes.length i) 0))) :=
  mapM_eq_some_map _ _ _ (fun i _ => barOf_eq_some log10 magnitudes i h)

theorem group_spec (log10 : ℚ → ℚ) (magnitudes : List ℚ)
    (h : magnitudes ≠ []) :
    ∃ bars, group_frequencies_into_bars log10 magnitudes = some bars ∧
      bars.length = DEFAULT_NUM_BARS ∧
      (∀ b ∈ bars, MIN_BAR_HEIGHT ≤ b ∧ b ≤ 150) ∧
      (∀ i : Nat, i < DEFAULT_NUM_BARS →
        bars.getD i 0 = barHeight log10
          (magnitudes.getD (sourceIdx magnitudes.length i) 0)) := by
  refine ⟨_, group_eq_map log10 magnitudes h, by simp, ?_, ?_⟩
  · intro b hb
    rcases List.mem_map.mp hb with ⟨i, _, rfl⟩
    exact ⟨barHeight_ge _ _, barHeight_le _ _⟩
  · intro i hi
    simp [List.getD_eq_getElem?_getD, List.getElem?_map,
      List.getElem?_range hi]

theorem group_nil (log10 : ℚ → ℚ) :
    group_frequencies_into_bars log10 [] = none := rfl

theorem group_ne_nil {log10 : ℚ → ℚ} {magnitudes bars : List ℚ}
    (h : group_frequencies_into_bars log10 magnitudes = some bars) :
    magnitudes ≠ [] := by
  intro h0
  rw [h0, group_nil] at h
  exact Option.noConfusion h

theorem group_some_spec {log10 : ℚ → ℚ} {magnitudes bars : List ℚ}
    (h : group_frequencies_into_bars log10 magnitudes = some bars) :
    bars.length = DEFAULT_NUM_BARS ∧
      (∀ b ∈ bars, MIN_BAR_HEIGHT ≤ b ∧ b ≤ 150) ∧
      (∀ i : Nat, i < DEFAULT_NUM_BARS →
        bars.getD i 0 = barHeight log10
          (magnitudes.getD (sourceIdx magnitudes.length i) 0)) := by
  obtain ⟨bars', h', hlen, hmem, hget⟩ :=
    group_spec log10 magnitudes (group_ne_nil h)
  rw [h] at h'
  obtain rfl := Option.some.inj h'
  exact ⟨hlen, hmem, hget⟩

/-- C1: for every non-empty magnitude spectrum given to the bar mapper
`group_frequencies_into_bars` (bar count `DEFAULT_NUM_BARS = 75`), the
returned bar list has length exactly `DEFAULT_NUM_BARS` and every element
lies in `[MIN_BAR_HEIGHT, 150]`, i.e. in `[4, 150]`. -/
theorem bar_mapper_length_and_bounds (log10 : ℚ → ℚ)
    (magnitudes : List ℚ) (h : magnitudes ≠ []) :
    ∃ bars, group_frequencies_into_bars log10 magnitudes = some bars ∧
      bars.length = DEFAULT_NUM_BARS ∧
      ∀ b ∈ bars, MIN_BAR_HEIGHT ≤ b ∧ b ≤ 150 := by
  obtain ⟨bars, h1, h2, h3, _⟩ := group_spec log10 magnitudes h
  exact ⟨bars, h1, h2, h3⟩

theorem bar_mapper_length_and_bounds_witness :
    ∃ bars, group_frequencies_into_bars (fun _ => 0) [1] = some bars ∧
      bars.length = DEFAULT_NUM_BARS ∧
      ∀ b ∈ bars, MIN_BAR_HEIGHT ≤ b ∧ b ≤ 150 :=
  bar_mapper_length_and_bounds (fun _ => 0) [1] (List.cons_ne_nil 1 [])

/-- C2: contrary to the claim, the bar mapper does not return normally on
an empty spectrum: with `total_bins = 0` the index computation
`(… ).min(total_bins - 1)` underflows and `magnitudes[idx]` is out of
bounds, a panic, modelled here by the `none` result. -/
theorem empty_spectrum_panics :
    group_frequencies_into_bars (fun _ => 0) [] = none := rfl

/-- C3: mirroring law.  With bar count `DEFAULT_NUM_BARS = 75` and
`half_bars = (DEFAULT_NUM_BARS + 1) / 2 = 38`, every output of the bar
mapper satisfies `bars[i] = bars[i % half_bars]` for
`half_bars ≤ i < DEFAULT_NUM_BARS`, because both bars are computed from
the same mirrored source index `sourceIdx`. -/
theorem bar_mirroring (log10 : ℚ → ℚ) (magnitudes bars : List ℚ)
    (hg : group_frequencies_into_bars log10 magnitudes = some bars)
    (i : Nat) (hlo : (DEFAULT_NUM_BARS + 1) / 2 ≤ i)
    (hhi : i < DEFAULT_NUM_BARS) :
    bars.getD i 0 = bars.getD (i % ((DEFAULT_NUM_BARS + 1) / 2)) 0 := by
  obtain ⟨_, _, hget⟩ := group_some_spec hg
  have hmodlt : i % ((DEFAULT_NUM_BARS + 1) / 2) < DEFAULT_NUM_BARS := by
    have := Nat.mod_lt i (y := (DEFAULT_NUM_BARS + 1) / 2)
      (by norm_num [DEFAULT_NUM_BARS])
    unfold DEFAULT_NUM_BARS at *
    omega
  rw [hget i hhi, hget _ hmodlt, sourceIdx_mod]

theorem bar_mirroring_witness :
    ((List.range DEFAULT_NUM_BARS).map
      (fun i => barHeight (fun _ => 0)
        (([1] : List ℚ).getD (sourceIdx ([1] : List ℚ).length i) 0))).getD 40 0 =
    ((List.range DEFAULT_NUM_BARS).map
      (fun i => barHeight (fun _ => 0)
        (([1] : List ℚ).getD (sourceIdx ([1] : List ℚ).length i) 0))).getD
      (40 % ((DEFAULT_NUM_BARS + 1) / 2)) 0 :=
  bar_mirroring (fun _ => 0) [1] _
    (group_eq_map (fun _ => 0) [1] (List.cons_ne_nil 1 []))
    40 (by norm_num [DEFAULT_NUM_BARS]) (by norm_num [DEFAULT_NUM_BARS])

/-- C7: on an active tick (playing) with no buffered spectrum data, the
tick handler leaves the whole state, in particular every bar height,
exactly unchanged. -/
theorem active_tick_without_data_no_change (log10 : ℚ → ℚ) (s : VisState)
    (hp : s.is_playing = true) (hempty : s.audio_data = []) :
    tick log10 s = some s := by
  simp [tick, hp, hempty]

theorem active_tick_without_data_no_change_witness :
    tick (fun _ => 0) ⟨true, false, [], [10]⟩ =
      some ⟨true, false, [], [10]⟩ :=
  active_tick_without_data_no_change (fun _ => 0) ⟨true, false, [], [10]⟩
    rfl rfl

/-- C10: a chunk with fewer than `BUFFER_SIZE = 2048` samples is skipped by
the analyzer loop: no transform is performed (`analyzeChunk` yields
nothing) and the shared spectrum slot is left exactly unchanged. -/
theorem short_chunk_skipped (fft : List (ℝ × ℝ) → List (ℝ × ℝ))
    (slot samples : List ℝ) (hshort : samples.length < BUFFER_SIZE) :
    analyzeChunk fft samples = none ∧
      analyzerStep fft slot samples = slot := by
  have h1 : analyzeChunk fft samples = none := by
    unfold analyzeChunk
    rw [if_neg (by omega)]
  refine ⟨h1, ?_⟩
  unfold analyzerStep
  rw [h1]

theorem short_chunk_skipped_witness :
    analyzeChunk id ([] : List ℝ) = none ∧
      analyzerStep id [1] ([] : List ℝ) = [1] :=
  short_chunk_skipped id [1] [] (by norm_num [BUFFER_SIZE])

/-- C4: for every window of exactly `BUFFER_SIZE = 2048` samples processed
by the analyzer (with any length-preserving transform, which the in-place
`FFT::process` on a slice is by construction), the produced spectrum has
length exactly `BUFFER_SIZE / 2 = 1024` and every element is non-negative,
being the complex norm of one of the first `BUFFER_SIZE / 2` transform
outputs. -/
theorem spectrum_length_and_nonneg (fft : List (ℝ × ℝ) → List (ℝ × ℝ))
    (samples : List ℝ)
    (hfft : ∀ l, (fft l).length = l.length)
    (hlen : samples.length = BUFFER_SIZE) :
    ∃ spectrum, analyzeChunk fft samples = some spectrum ∧
      spectrum.length = BUFFER_SIZE / 2 ∧ ∀ v ∈ spectrum, 0 ≤ v := by
  refine ⟨((fft ((samples.take BUFFER_SIZE).map
      (fun x => (x, (0 : ℝ))))).take (BUFFER_SIZE / 2)).map cnorm,
    ?_, ?_, ?_⟩
  · unfold analyzeChunk
    rw [if_pos (by omega)]
  · simp only [List.length_map, List.length_take, hfft, hlen]
    norm_num [BUFFER_SIZE]
  · intro v hv
    rcases List.mem_map.mp hv with ⟨c, _, rfl⟩
    exact Real.sqrt_nonneg _

theorem spectrum_length_and_nonneg_witness :
    ∃ spectrum,
      analyzeChunk id (List.replicate BUFFER_SIZE (0 : ℝ)) = some spectrum ∧
      spectrum.length = BUFFER_SIZE / 2 ∧ ∀ v ∈ spectrum, 0 ≤ v :=
  spectrum_length_and_nonneg id (List.replicate BUFFER_SIZE (0 : ℝ))
    (fun _ => rfl) (List.length_replicate _ _)

/-- C9: one `next()` call of the tap on a non-exhausted source, with the
accumulator still below `BUFFER_SIZE` (its invariant): the outcome does not
depend on whether the channel send can succeed (the send's result is
discarded); the sample is returned unchanged; and either the accumulator
reaches exactly `BUFFER_SIZE`, in which case the full window of exactly
`BUFFER_SIZE` samples is handed to the sender and the accumulator is reset
to empty, or the sample is merely appended to the accumulator and nothing
is sent. -/
theorem tap_next_passthrough (send1 send2 : List ℚ → Bool) (t : TapState)
    (sample : ℚ) (rest : List ℚ)
    (hinner : t.inner = sample :: rest)
    (hbuf : t.buf.length < BUFFER_SIZE) :
    tapNext send1 t = tapNext send2 t ∧
    (tapNext send1 t).1 = some sample ∧
    (tapNext send1 t).2.1.inner = rest ∧
    (t.buf.length + 1 = BUFFER_SIZE →
      (tapNext send1 t).2.1.buf = [] ∧
      (tapNext send1 t).2.2 = some (t.buf ++ [sample]) ∧
      (t.buf ++ [sample]).length = BUFFER_SIZE) ∧
    (t.buf.length + 1 ≠ BUFFER_SIZE →
      (tapNext send1 t).2.1.buf = t.buf ++ [sample] ∧
      (tapNext send1 t).2.2 = none) := by
  rcases t with ⟨inner, buf⟩
  obtain rfl : inner = sample :: rest := hinner
  replace hbuf : buf.length < BUFFER_SIZE := hbuf
  simp only [tapNext, List.length_append, List.length_cons, List.length_nil]
  by_cases hfull : buf.length + 1 = BUFFER_SIZE
  · rw [if_pos (by omega)]
    exact ⟨trivial, rfl, rfl, fun _ => ⟨rfl, rfl, by omega⟩,
      fun hne => absurd hfull hne⟩
  · rw [if_neg (by omega)]
    exact ⟨trivial, rfl, rfl, fun heq => absurd heq hfull, fun _ => ⟨rfl, rfl⟩⟩

theorem tap_next_passthrough_witness :
    tapNext (fun _ => true) ⟨[7], []⟩ = tapNext (fun _ => false) ⟨[7], []⟩ ∧
    (tapNext (fun _ => true) ⟨[7], []⟩).1 = some 7 ∧
    (tapNext (fun _ => true) ⟨[7], []⟩).2.1.inner = [] ∧
    ((([] : List ℚ).length + 1 = BUFFER_SIZE →
      (tapNext (fun _ => true) ⟨[7], []⟩).2.1.buf = [] ∧
      (tapNext (fun _ => true) ⟨[7], []⟩).2.2 = some (([] : List ℚ) ++ [7]) ∧
      (([] : List ℚ) ++ [7]).length = BUFFER_SIZE)) ∧
    (([] : List ℚ).length + 1 ≠ BUFFER_SIZE →
      (tapNext (fun _ => true) ⟨[7], []⟩).2.1.buf = ([] : List ℚ) ++ [7] ∧
      (tapNext (fun _ => true) ⟨[7], []⟩).2.2 = none) :=
  tap_next_passthrough (fun _ => true) (fun _ => false) ⟨[7], []⟩ 7 []
    rfl (by norm_num [BUFFER_SIZE])

theorem zipWith_append_getD (f : ℚ → ℚ → ℚ) (l₁ l₂ rest : List ℚ) (i : Nat)
    (h1 : i < l₁.length) (h2 : i < l₂.length) :
    (List.zipWith f l₁ l₂ ++ rest).getD i 0 = f (l₁.getD i 0) (l₂.getD i 0) := by
  have hz : i < (List.zipWith f l₁ l₂).length := by
    rw [List.length_zipWith]
    exact lt_min h1 h2
  rw [List.getD_eq_getElem?_getD, List.getElem?_append_left hz,
    List.getElem?_zipWith', List.getElem?_eq_getElem h1,
    List.getElem?_eq_getElem h2]
  simp [List.getD_eq_getElem?_getD, List.getElem?_eq_getElem h1,
    List.getElem?_eq_getElem h2]

/-- C5: on an active tick (playing, with buffered spectrum data whose
bar-mapper image is `new_bars`), every bar `i` of the resulting state is
exactly `old * SMOOTHING + new_bars[i] * (1 - SMOOTHING)` with
`SMOOTHING = 1/5`, i.e. the exponential-smoothing update of
`update_frequency_data`. -/
theorem active_tick_smoothing (log10 : ℚ → ℚ) (s : VisState)
    (new_bars : List ℚ)
    (hp : s.is_playing = true)
    (hfreq : s.frequency_data.length = DEFAULT_NUM_BARS)
    (hg : group_frequencies_into_bars log10 s.audio_data = some new_bars) :
    ∃ s', tick log10 s = some s' ∧
      ∀ i : Nat, i < DEFAULT_NUM_BARS →
        s'.frequency_data.getD i 0 =
          s.frequency_data.getD i 0 * SMOOTHING +
            new_bars.getD i 0 * (1 - SMOOTHING) := by
  have hne : s.audio_data ≠ [] := group_ne_nil hg
  have hnb : new_bars.length = DEFAULT_NUM_BARS := (group_some_spec hg).1
  have hempty : ¬(s.audio_data.isEmpty = true) := by
    cases h : s.audio_data with
    | nil => exact absurd h hne
    | cons a t => simp
  have htick : tick log10 s = some
      { s with
        audio_data := [],
        frequency_data :=
          List.zipWith (fun old new => old * SMOOTHING + new * (1 - SMOOTHING))
              s.frequency_data new_bars ++
            s.frequency_data.drop new_bars.length } := by
    rw [tick, if_pos hp, if_neg hempty, update_frequency_data, hg]
    rfl
  refine ⟨_, htick, ?_⟩
  intro i hi
  exact zipWith_append_getD _ _ _ _ i (by omega) (by omega)

theorem active_tick_smoothing_witness :
    ∃ s', tick (fun _ => 0)
        ⟨true, false, [1], List.replicate DEFAULT_NUM_BARS MIN_BAR_HEIGHT⟩ =
        some s' ∧
      ∀ i : Nat, i < DEFAULT_NUM_BARS →
        s'.frequency_data.getD i 0 =
          (List.replicate DEFAULT_NUM_BARS MIN_BAR_HEIGHT).getD i 0 *
              SMOOTHING +
            ((List.range DEFAULT_NUM_BARS).map
              (fun i => barHeight (fun _ => 0)
                (([1] : List ℚ).getD (sourceIdx ([1] : List ℚ).length i) 0))).getD
                i 0 * (1 - SMOOTHING) :=
  active_tick_smoothing (fun _ => 0)
    ⟨true, false, [1], List.replicate DEFAULT_NUM_BARS MIN_BAR_HEIGHT⟩ _
    rfl (List.length_replicate _ _)
    (group_eq_map (fun _ => 0) [1] (List.cons_ne_nil 1 []))

theorem tick_decay_eq (log10 : ℚ → ℚ) (s : VisState)
    (hp : s.is_playing = false) (hd : s.is_decaying = true) :
    tick log10 s = some
      { s with
        frequency_data := decayStep s.frequency_data,
        is_decaying := anyAbove s.frequency_data } := by
  rw [tick, if_neg (by simp [hp]), if_pos hd]

theorem tick_idle_eq (log10 : ℚ → ℚ) (s : VisState)
    (hp : s.is_playing = false) (hd : s.is_decaying = false) :
    tick log10 s = some s := by
  rw [tick, if_neg (by simp [hp]), if_neg (by simp [hd])]

theorem tickN_succ_right (log10 : ℚ → ℚ) (n : Nat) :
    ∀ s : VisState,
      tickN log10 (n + 1) s = (tickN log10 n s).bind (tick log10) := by
  induction n with
  | zero =>
    intro s
    show (tick log10 s).bind (tickN log10 0) = tick log10 s
    cases tick log10 s <;> rfl
  | succ m ih =>
    intro s
    show (tick log10 s).bind (tickN log10 (m + 1)) =
      ((tick log10 s).bind (tickN log10 m)).bind (tick log10)
    cases tick log10 s with
    | none => rfl
    | some s1 => exact ih s1

theorem decay_comp (a : ℚ) (n : Nat) :
    max (max (a - 8) MIN_BAR_HEIGHT - 8 * (n : ℚ)) MIN_BAR_HEIGHT =
      max (a - 8 * ((n : ℚ) + 1)) MIN_BAR_HEIGHT := by
  unfold MIN_BAR_HEIGHT
  have hn : (0 : ℚ) ≤ 8 * (n : ℚ) := by positivity
  rcases le_total (a - 8) 4 with hc | hc
  · rw [max_eq_right hc, max_eq_right (by linarith),
      max_eq_right (by linarith)]
  · rw [max_eq_left hc]
    congr 1
    ring

theorem decay_master (log10 : ℚ → ℚ) :
    ∀ (n : Nat) (s : VisState),
      s.is_playing = false →
      (s.is_decaying = true ∨ ∀ x ∈ s.frequency_data, x = MIN_BAR_HEIGHT) →
      (∀ x ∈ s.frequency_data, MIN_BAR_HEIGHT ≤ x) →
      ∃ s', tickN log10 n s = some s' ∧
        s'.is_playing = false ∧
        s'.frequency_data =
          s.frequency_data.map
            (fun x => max (x - 8 * (n : ℚ)) MIN_BAR_HEIGHT) ∧
        (s'.is_decaying = true ∨
          ∀ x ∈ s'.frequency_data, x = MIN_BAR_HEIGHT) := by
  intro n
  induction n with
  | zero =>
    intro s hp hdisj hfloor
    refine ⟨s, rfl, hp, ?_, hdisj⟩
    symm
    have h1 : s.frequency_data.map
        (fun x => max (x - 8 * ((0 : Nat) : ℚ)) MIN_BAR_HEIGHT) =
        s.frequency_data.map id :=
      List.map_congr_left (fun x hx => by
        simp only [Nat.cast_zero, mul_zero, sub_zero, id]
        exact max_eq_left (hfloor x hx))
    rw [h1, List.map_id]
  | succ m ih =>
    intro s hp hdisj hfloor
    cases hd : s.is_decaying with
    | true =>
      have ht := tick_decay_eq log10 s hp hd
      have hfloor1 : ∀ x ∈ decayStep s.frequency_data,
          MIN_BAR_HEIGHT ≤ x := by
        intro x hx
        rcases List.mem_map.mp hx with ⟨y, _, rfl⟩
        exact le_max_right _ _
      have hdisj1 : anyAbove s.frequency_data = true ∨
          ∀ x ∈ decayStep s.frequency_data, x = MIN_BAR_HEIGHT := by
        cases ha : anyAbove s.frequency_data with
        | true => exact Or.inl rfl
        | false =>
          refine Or.inr fun x hx => ?_
          have hnlt : ¬(MIN_BAR_HEIGHT < x) := by
            have hfa := List.any_eq_false.mp ha x hx
            simpa using hfa
          exact le_antisymm (not_lt.mp hnlt) (hfloor1 x hx)
      obtain ⟨s2, h2, hp2, hfreq2, hdisj2⟩ :=
        ih { s with
              frequency_data := decayStep s.frequency_data,
              is_decaying := anyAbove s.frequency_data }
          hp hdisj1 hfloor1
      refine ⟨s2, ?_, hp2, ?_, hdisj2⟩
      · show (tick log10 s).bind (tickN log10 m) = some s2
        rw [ht]
        exact h2
      · rw [hfreq2]
        show (decayStep s.frequency_data).map _ = _
        rw [decayStep, List.map_map]
        refine List.map_congr_left fun x _ => ?_
        show max (max (x - 8) MIN_BAR_HEIGHT - 8 * (m : ℚ)) MIN_BAR_HEIGHT =
          max (x - 8 * ((m + 1 : Nat) : ℚ)) MIN_BAR_HEIGHT
        rw [decay_comp]
        norm_num
    | false =>
      have hall : ∀ x ∈ s.frequency_data, x = MIN_BAR_HEIGHT := by
        rcases hdisj with hdt | hall
        · rw [hd] at hdt
          exact absurd hdt (by simp)
        · exact hall
      have ht := tick_idle_eq log10 s hp hd
      obtain ⟨s2, h2, hp2, hfreq2, hdisj2⟩ := ih s hp (Or.inr hall) hfloor
      refine ⟨s2, ?_, hp2, ?_, hdisj2⟩
      · show (tick log10 s).bind (tickN log10 m) = some s2
        rw [ht]
        exact h2
      · rw [hfreq2]
        refine List.map_congr_left fun x hx => ?_
        rw [hall x hx]
        unfold MIN_BAR_HEIGHT
        have hm : (0 : ℚ) ≤ 8 * (m : ℚ) := by positivity
        have hm1 : (0 : ℚ) ≤ 8 * ((m + 1 : Nat) : ℚ) := by positivity
        rw [max_eq_right (by linarith), max_eq_right (by linarith)]

theorem map_getD_le (l : List ℚ) (f g : ℚ → ℚ) (d : ℚ)
    (h : ∀ x ∈ l, f x ≤ g x) (i : Nat) :
    (l.map f).getD i d ≤ (l.map g).getD i d := by
  rcases Nat.lt_or_ge i l.length with hi | hi
  · rw [List.getD_eq_getElem?_getD, List.getD_eq_getElem?_getD,
      List.getElem?_map, List.getElem?_map, List.getElem?_eq_getElem hi]
    simp only [Option.map_some', Option.getD_some]
    exact h _ (List.getElem_mem hi)
  · rw [List.getD_eq_getElem?_getD, List.getD_eq_getElem?_getD,
      List.getElem?_map, List.getElem?_map, List.getElem?_eq_none hi]
    simp

/-- C6: with playback not playing and the engine decaying, and every bar in
`[MIN_BAR_HEIGHT, 150]`: (a) the next tick replaces every bar `h` by
`max (h - 8) MIN_BAR_HEIGHT`, i.e. subtracts the fixed decrement `8`
clamped below at the floor; (b) every subsequent tick's bar list is
pointwise at most the previous tick's; (c) after `19` ticks — the bound
`⌈(150 - MIN_BAR_HEIGHT) / 8⌉ = ⌈146 / 8⌉ = 19` — the all-floor fixed
point is reached, `is_decaying` is cleared, and the tick subscription is
off, so ticking stops. -/
theorem decay_monotone_and_bounded (log10 : ℚ → ℚ) (s : VisState)
    (hp : s.is_playing = false) (hd : s.is_decaying = true)
    (hbound : ∀ x ∈ s.frequency_data, MIN_BAR_HEIGHT ≤ x ∧ x ≤ 150) :
    (tick log10 s = some
      { s with
        frequency_data := decayStep s.frequency_data,
        is_decaying := anyAbove s.frequency_data }) ∧
    (∀ n : Nat, ∃ sn sn1, tickN log10 n s = some sn ∧
      tickN log10 (n + 1) s = some sn1 ∧
      ∀ i : Nat, sn1.frequency_data.getD i MIN_BAR_HEIGHT ≤
        sn.frequency_data.getD i MIN_BAR_HEIGHT) ∧
    (∃ s', tickN log10 19 s = some s' ∧
      (∀ x ∈ s'.frequency_data, x = MIN_BAR_HEIGHT) ∧
      s'.is_decaying = false ∧ subscription_active s' = false) := by
  have hfloor : ∀ x ∈ s.frequency_data, MIN_BAR_HEIGHT ≤ x :=
    fun x hx => (hbound x hx).1
  refine ⟨tick_decay_eq log10 s hp hd, ?_, ?_⟩
  · intro n
    obtain ⟨sn, hn, _, hfn, _⟩ := decay_master log10 n s hp (Or.inl hd) hfloor
    obtain ⟨sn1, hn1, _, hfn1, _⟩ :=
      decay_master log10 (n + 1) s hp (Or.inl hd) hfloor
    refine ⟨sn, sn1, hn, hn1, fun i => ?_⟩
    rw [hfn, hfn1]
    refine map_getD_le _ _ _ _ (fun x _ => ?_) i
    exact max_le_max (by push_cast; linarith) le_rfl
  · obtain ⟨s18, h18, hp18, hf18, hdisj18⟩ :=
      decay_master log10 18 s hp (Or.inl hd) hfloor
    have h19 : tickN log10 19 s = (tickN log10 18 s).bind (tick log10) :=
      tickN_succ_right log10 18 s
    cases hd18 : s18.is_decaying with
    | true =>
      have ht := tick_decay_eq log10 s18 hp18 hd18
      have hall : ∀ x ∈ decayStep s18.frequency_data,
          x = MIN_BAR_HEIGHT := by
        intro x hx
        rcases List.mem_map.mp hx with ⟨y, hy, rfl⟩
        rw [hf18] at hy
        rcases List.mem_map.mp hy with ⟨z, hz, rfl⟩
        have hz150 := (hbound z hz).2
        refine max_eq_right ?_
        have h6 : max (z - 8 * ((18 : Nat) : ℚ)) MIN_BAR_HEIGHT ≤ 6 :=
          max_le (by push_cast; linarith) (by norm_num [MIN_BAR_HEIGHT])
        unfold MIN_BAR_HEIGHT
        unfold MIN_BAR_HEIGHT at h6
        linarith
      have hflag : anyAbove s18.frequency_data = false := by
        rw [anyAbove]
        apply List.any_eq_false.mpr
        intro x hx
        rw [hall x hx]
        simp
      refine ⟨{ s18 with
          frequency_data := decayStep s18.frequency_data,
          is_decaying := anyAbove s18.frequency_data }, ?_, hall, hflag, ?_⟩
      · rw [h19, h18, Option.some_bind, ht]
      · show (s18.is_playing || anyAbove s18.frequency_data) = false
        rw [hp18, hflag]
        rfl
    | false =>
      have ht := tick_idle_eq log10 s18 hp18 hd18
      have hall : ∀ x ∈ s18.frequency_data, x = MIN_BAR_HEIGHT := by
        rcases hdisj18 with hdt | hall
        · rw [hd18] at hdt
          exact absurd hdt (by simp)
        · exact hall
      refine ⟨s18, ?_, hall, hd18, ?_⟩
      · rw [h19, h18, Option.some_bind, ht]
      · show (s18.is_playing || s18.is_decaying) = false
        rw [hp18, hd18]
        rfl

theorem decay_monotone_and_bounded_witness :
    (tick (fun _ => 0)
        ⟨false, true, [], List.replicate DEFAULT_NUM_BARS MIN_BAR_HEIGHT⟩ =
      some
        { (⟨false, true, [],
            List.replicate DEFAULT_NUM_BARS MIN_BAR_HEIGHT⟩ : VisState) with
          frequency_data :=
            decayStep (List.replicate DEFAULT_NUM_BARS MIN_BAR_HEIGHT),
          is_decaying :=
            anyAbove (List.replicate DEFAULT_NUM_BARS MIN_BAR_HEIGHT) }) ∧
    (∀ n : Nat, ∃ sn sn1,
      tickN (fun _ => 0) n
          ⟨false, true, [], List.replicate DEFAULT_NUM_BARS MIN_BAR_HEIGHT⟩ =
        some sn ∧
      tickN (fun _ => 0) (n + 1)
          ⟨false, true, [], List.replicate DEFAULT_NUM_BARS MIN_BAR_HEIGHT⟩ =
        some sn1 ∧
      ∀ i : Nat, sn1.frequency_data.getD i MIN_BAR_HEIGHT ≤
        sn.frequency_data.getD i MIN_BAR_HEIGHT) ∧
    (∃ s', tickN (fun _ => 0) 19
        ⟨false, true, [], List.replicate DEFAULT_NUM_BARS MIN_BAR_HEIGHT⟩ =
        some s' ∧
      (∀ x ∈ s'.frequency_data, x = MIN_BAR_HEIGHT) ∧
      s'.is_decaying = false ∧ subscription_active s' = false) :=
  decay_monotone_and_bounded (fun _ => 0)
    ⟨false, true, [], List.replicate DEFAULT_NUM_BARS MIN_BAR_HEIGHT⟩
    rfl rfl
    (fun x hx => by
      rw [List.eq_of_mem_replicate hx]
      norm_num [MIN_BAR_HEIGHT])

/-- Invariant of the displayed bar list: length exactly `DEFAULT_NUM_BARS`
and every element within `[MIN_BAR_HEIGHT, 150]`. -/
def BarInv (freq : List ℚ) : Prop :=
  freq.length = DEFAULT_NUM_BARS ∧ ∀ x ∈ freq, MIN_BAR_HEIGHT ≤ x ∧ x ≤ 150

/-- C8: the bar invariant holds of the initial state (all bars at
`MIN_BAR_HEIGHT`), and every tick — smoothing update, decay step, or
no-op — preserves it: the bar list keeps length `DEFAULT_NUM_BARS = 75`
and all elements stay within `[MIN_BAR_HEIGHT, 150] = [4, 150]`. -/
theorem bar_invariant_after_ticks :
    BarInv initState.frequency_data ∧
    ∀ (log10 : ℚ → ℚ) (s s' : VisState),
      BarInv s.frequency_data → tick log10 s = some s' →
      BarInv s'.frequency_data := by
  constructor
  · refine ⟨List.length_replicate _ _, fun x hx => ?_⟩
    rw [List.eq_of_mem_replicate hx]
    norm_num [MIN_BAR_HEIGHT]
  · intro log10 s s' hInv htick
    by_cases hp : s.is_playing = true
    · by_cases he : s.audio_data.isEmpty = true
      · rw [tick, if_pos hp, if_pos he] at htick
        obtain rfl := Option.some.inj htick
        exact hInv
      · rw [tick, if_pos hp, if_neg he] at htick
        have hne : s.audio_data ≠ [] := by
          intro h0
          apply he
          rw [h0]
          rfl
        obtain ⟨nb, hg, hnbl, hnbm, _⟩ := group_spec log10 s.audio_data hne
        rw [update_frequency_data, hg, Option.map_some'] at htick
        obtain rfl := Option.some.inj htick
        constructor
        · show (List.zipWith _ s.frequency_data nb ++
              s.frequency_data.drop nb.length).length = DEFAULT_NUM_BARS
          rw [List.length_append, List.length_zipWith, List.length_drop,
            hInv.1, hnbl]
          omega
        · intro x hx
          rcases List.mem_append.mp hx with hx1 | hx2
          · obtain ⟨i, hi, rfl⟩ := List.mem_iff_getElem.mp hx1
            rw [List.getElem_zipWith]
            have h1 := hInv.2 _
              (List.getElem_mem (List.lt_length_left_of_zipWith hi))
            have h2 := hnbm _
              (List.getElem_mem (List.lt_length_right_of_zipWith hi))
            simp only [SMOOTHING, MIN_BAR_HEIGHT] at h1 h2 ⊢
            constructor
            · linarith [h1.1, h2.1]
            · linarith [h1.2, h2.2]
          · rw [hnbl, ← hInv.1, List.drop_length] at hx2
            exact absurd hx2 (List.not_mem_nil x)
    · rw [tick, if_neg hp] at htick
      by_cases hdc : s.is_decaying = true
      · rw [if_pos hdc] at htick
        obtain rfl := Option.some.inj htick
        constructor
        · show (decayStep s.frequency_data).length = DEFAULT_NUM_BARS
          rw [decayStep, List.length_map]
          exact hInv.1
        · intro x hx
          rcases List.mem_map.mp hx with ⟨y, hy, rfl⟩
          have hyb := hInv.2 y hy
          simp only [MIN_BAR_HEIGHT] at hyb ⊢
          exact ⟨le_max_right _ _,
            max_le (by linarith [hyb.2]) (by norm_num)⟩
      · rw [if_neg hdc] at htick
        obtain rfl := Option.some.inj htick
        exact hInv
